import Mathlib

/-!
Shallow embedding of `src/child_process.rs` of the syswall repository:
the remote memory reader (`get_child_buffer`, `get_child_buffer_cstr`)
and the trace loop (`child_loop`), together with proofs about them.

Modelling conventions:
* Child memory is a partial map from addresses to byte values
  (`none` = unmapped / inaccessible to `process_vm_readv`).
* Rust `.expect(..)` calls, which abort the tracer process, are modelled
  by explicit `panicked` outcomes.
* The unbounded `loop` of `get_child_buffer_cstr` and the unbounded
  `loop` of `child_loop` are given fuel; running out of fuel
  (`fuelOut`) marks non-termination within the given fuel.
-/

set_option maxRecDepth 10000

/-- Child process memory: a partial map from addresses to byte values
(`none` means the address is unmapped or inaccessible). -/
def Mem : Type := Nat → Option Nat

/-- The chunk size used by `get_child_buffer_cstr` (255 in the source). -/
def chunkSize : Nat := 255

/-- Model of `process_vm_readv` over a single remote iovec: read `n`
consecutive bytes starting at `base`; the read fails (`none`) as soon as
any address in the range is unmapped. -/
def readRange (mem : Mem) : Nat → Nat → Option (List Nat)
  | _, 0 => some []
  | base, n+1 =>
    (mem base).bind (fun b => (readRange mem (base+1) n).map (fun rest => b :: rest))

/-- Continuation byte test for UTF-8 (0x80 ..= 0xBF). -/
def isCont (b : Nat) : Bool := 0x80 ≤ b && b ≤ 0xBF

/-- The Unicode replacement character U+FFFD. -/
def repl : Char := Char.ofNat 0xFFFD

/-- Model of the byte-level behaviour of Rust's `String::from_utf8_lossy`:
well-formed UTF-8 sequences are decoded, and each maximal ill-formed
subsequence part is replaced by one U+FFFD. The `Nat` argument is
structural fuel; every step consumes at least one byte, so fuel equal to
the list length (as supplied by `utf8Lossy`) always suffices. -/
def lossyChars : Nat → List Nat → List Char
  | 0, _ => []
  | _+1, [] => []
  | f+1, b :: rest =>
    if b < 0x80 then Char.ofNat b :: lossyChars f rest
    else if 0xC2 ≤ b && b ≤ 0xDF then
      match rest with
      | [] => [repl]
      | b2 :: rest2 =>
        if isCont b2 then
          Char.ofNat ((b - 0xC0) * 0x40 + (b2 - 0x80)) :: lossyChars f rest2
        else repl :: lossyChars f (b2 :: rest2)
    else if 0xE0 ≤ b && b ≤ 0xEF then
      match rest with
      | [] => [repl]
      | b2 :: rest2 =>
        if (b == 0xE0 && (0xA0 ≤ b2 && b2 ≤ 0xBF)) ||
           (b == 0xED && (0x80 ≤ b2 && b2 ≤ 0x9F)) ||
           (b != 0xE0 && b != 0xED && isCont b2) then
          match rest2 with
          | [] => [repl]
          | b3 :: rest3 =>
            if isCont b3 then
              Char.ofNat ((b - 0xE0) * 0x1000 + (b2 - 0x80) * 0x40 + (b3 - 0x80)) ::
                lossyChars f rest3
            else repl :: lossyChars f (b3 :: rest3)
        else repl :: lossyChars f (b2 :: rest2)
    else if 0xF0 ≤ b && b ≤ 0xF4 then
      match rest with
      | [] => [repl]
      | b2 :: rest2 =>
        if (b == 0xF0 && (0x90 ≤ b2 && b2 ≤ 0xBF)) ||
           (b == 0xF4 && (0x80 ≤ b2 && b2 ≤ 0x8F)) ||
           (b != 0xF0 && b != 0xF4 && isCont b2) then
          match rest2 with
          | [] => [repl]
          | b3 :: rest3 =>
            if isCont b3 then
              match rest3 with
              | [] => [repl]
              | b4 :: rest4 =>
                if isCont b4 then
                  Char.ofNat ((b - 0xF0) * 0x40000 + (b2 - 0x80) * 0x1000 +
                    (b3 - 0x80) * 0x40 + (b4 - 0x80)) :: lossyChars f rest4
                else repl :: lossyChars f (b4 :: rest4)
            else repl :: lossyChars f (b3 :: rest3)
        else repl :: lossyChars f (b2 :: rest2)
    else repl :: lossyChars f rest

/-- Model of `String::from_utf8_lossy(..).into_owned()`. -/
def utf8Lossy (bs : List Nat) : String := String.mk (lossyChars bs.length bs)

/-- Outcome of `get_child_buffer`. `panicked` models the source's
`.expect("Unable to read from child process virtual memory")`, which
aborts the whole tracer process. -/
inductive ReadRes where
  | ok (s : String)
  | panicked
deriving DecidableEq

/-- Embedding of `get_child_buffer` from the source: read exactly `len` bytes at
`base` via `process_vm_readv` and decode them lossily; a failed read
panics (aborting the tracer). -/
def get_child_buffer (mem : Mem) (base len : Nat) : ReadRes :=
  match readRange mem base len with
  | none => ReadRes.panicked
  | some bs => ReadRes.ok (utf8Lossy bs)

/-- Model of `Vec::contains` on byte vectors. -/
def vecContains : List Nat → Nat → Bool
  | [], _ => false
  | b :: rest, x => b == x || vecContains rest x

/-- Model of `Iterator::position`: index of the first element
satisfying `p`. -/
def position (p : Nat → Bool) : List Nat → Option Nat
  | [] => none
  | b :: rest => if p b then some 0 else (position p rest).map (· + 1)

/-- Outcome of the chunked read loop in `get_child_buffer_cstr`.
`done buf nulIdx reads` is a normal `break` with the accumulated buffer,
the `nul_idx` variable, and the number of completed chunk reads
(observational instrumentation); `panicked` models the `.expect` abort
on a failed `process_vm_readv`; `fuelOut` marks that the (unbounded)
source loop did not exit within the given fuel. -/
inductive LoopRes where
  | done (buf : List Nat) (nulIdx : Int) (reads : Nat)
  | panicked (reads : Nat)
  | fuelOut
deriving DecidableEq

/-- The chunk-reading loop of `get_child_buffer_cstr`: read a 255-byte
chunk at `base`, append it to `acc`, advance `base` by 255, and break
once the accumulated buffer contains a zero byte, recording the index
of the first zero byte in `nul_idx`. -/
def cstrLoop (mem : Mem) : Nat → Nat → List Nat → Int → Nat → LoopRes
  | 0, _, _, _, _ => LoopRes.fuelOut
  | f+1, base, acc, nulIdx, reads =>
    match readRange mem base chunkSize with
    | none => LoopRes.panicked reads
    | some chunk =>
      let acc' := acc ++ chunk
      if vecContains acc' 0 then
        match position (fun x => x == 0) acc' with
        | some idx => LoopRes.done acc' (Int.ofNat idx) (reads + 1)
        | none => LoopRes.done acc' nulIdx (reads + 1)
      else cstrLoop mem f (base + chunkSize) acc' nulIdx (reads + 1)

/-- Outcome of `get_child_buffer_cstr`. -/
inductive CstrRes where
  | ok (s : String)
  | panicked
  | fuelOut
deriving DecidableEq

/-- Embedding of `get_child_buffer_cstr` from the source: run the chunk loop starting
from an empty buffer and `nul_idx = -1`; on a normal exit decode the
bytes strictly before `nul_idx` when `nul_idx > -1`, otherwise return
the empty string. -/
def get_child_buffer_cstr (fuel : Nat) (mem : Mem) (base : Nat) : CstrRes :=
  match cstrLoop mem fuel base [] (-1) 0 with
  | LoopRes.done buf nulIdx _ =>
    if nulIdx > -1 then CstrRes.ok (utf8Lossy (buf.take nulIdx.toNat))
    else CstrRes.ok ""
  | LoopRes.panicked _ => CstrRes.panicked
  | LoopRes.fuelOut => CstrRes.fuelOut

/-- The registers the trace loop reads: only `orig_rax` (the syscall id)
is inspected by `child_loop` itself; `rax` stands for the rest of the
snapshot handed to the handlers. -/
structure Regs where
  orig_rax : Nat
  rax : Nat
deriving DecidableEq

/-- The errno ESRCH ("no such process"), numeric value 3 on Linux. -/
def ESRCH : Nat := 3

/-- One loop iteration's OS inputs: the outcome of the entry
`ptrace::getregs` and of the exit `ptrace::getregs`. The error payload
is the value of `err.as_errno()` (`none` when the nix error carries no
errno). The intervening `ptrace::syscall` / `waitpid` calls are modelled
as succeeding (their failure would panic, which no claim concerns). -/
structure IterInput where
  entry : Except (Option Nat) Regs
  exitR : Except (Option Nat) Regs

/-- Handler-call events recorded by the trace-loop model. `iter` is the
iteration (syscall instance) index, `id` the syscall id passed to the
handler, `h` the handoff value (`handler_res`). `logErr` records the
"Unable to get syscall registers after servicing" diagnostic. -/
inductive Ev (H : Type) where
  | pre (iter : Nat) (id : Nat) (h : H)
  | post (iter : Nat) (id : Nat) (h : H)
  | logErr (iter : Nat) (e : Option Nat)
deriving DecidableEq

/-- How the trace loop ended. -/
inductive LoopExit where
  | exited
  | panicked
  | fuelOut
deriving DecidableEq

/-- Embedding of `child_loop` from the source, iterating from iteration index `n`
with the given fuel. The syscall handlers are abstracted as an opaque
pre-handler `preH` producing the handoff value (`handler_res`); the
returned trace records the handler invocations in order. Per the
source: entry registers are read with `.expect` (panicking on any
failure); `syscall_id` is bound to the entry `orig_rax` before the
pre-handler runs; after resuming, the exit register read is matched:
success invokes the post-handler with the saved `handler_res` and
`syscall_id`, an ESRCH error breaks out of the loop, and any other
error is logged and the loop continues. -/
def childLoop {H : Type} (preH : Nat → Regs → H) (o : Nat → IterInput) :
    Nat → Nat → List (Ev H) × LoopExit
  | 0, _ => ([], LoopExit.fuelOut)
  | f+1, n =>
    match (o n).entry with
    | Except.error _ => ([], LoopExit.panicked)
    | Except.ok eregs =>
      let id := eregs.orig_rax
      let h := preH id eregs
      match (o n).exitR with
      | Except.ok _ =>
        let rest := childLoop preH o f (n+1)
        (Ev.pre n id h :: Ev.post n id h :: rest.1, rest.2)
      | Except.error e =>
        if e = some ESRCH then ([Ev.pre n id h], LoopExit.exited)
        else
          let rest := childLoop preH o f (n+1)
          (Ev.pre n id h :: Ev.logErr n e :: rest.1, rest.2)

/-- The iteration index an event belongs to. -/
def evIter {H : Type} : Ev H → Nat
  | Ev.pre n _ _ => n
  | Ev.post n _ _ => n
  | Ev.logErr n _ => n

/-- Well-pairedness of a handler trace starting at iteration `n`: each
iteration contributes exactly one pre-handler call, followed either by
the matching post-handler call (same iteration, same syscall id, same
handoff value), by a logged exit-register read error, or by nothing at
all when the loop stops; iterations never interleave. -/
inductive Paired {H : Type} : Nat → List (Ev H) → Prop where
  | nil (n : Nat) : Paired n []
  | last (n id : Nat) (h : H) : Paired n [Ev.pre n id h]
  | skip (n id : Nat) (h : H) (e : Option Nat) (evs : List (Ev H)) :
      Paired (n+1) evs → Paired n (Ev.pre n id h :: Ev.logErr n e :: evs)
  | full (n id : Nat) (h : H) (evs : List (Ev H)) :
      Paired (n+1) evs → Paired n (Ev.pre n id h :: Ev.post n id h :: evs)

/-- All-ones memory: every address mapped, byte value 1 (no zero byte
anywhere). -/
def onesMem : Mem := fun _ => some 1

/-- All-zero memory: every address mapped, byte value 0. -/
def zeroMem : Mem := fun _ => some 0

/-- Fully unmapped memory. -/
def noMem : Mem := fun _ => none

/-- Memory holding the C string "AAA": byte 65 at addresses 0..2, zero
bytes everywhere else. -/
def aaaMem : Mem := fun a => some (if a < 3 then 65 else 0)

/-- Memory holding "abc" followed by its terminator at address 3, with
every address past the terminator unmapped. -/
def shortMem : Mem := fun a =>
  if a < 3 then some (97 + a) else if a = 3 then some 0 else none

/-- Memory with the invalid UTF-8 byte 0xFF at every address. -/
def ffMem : Mem := fun _ => some 0xFF

/-- Pre-handler used in concrete runs: the handoff value is the syscall
id itself. -/
def idPre : Nat → Regs → Nat := fun id _ => id

/-- Oracle: iteration 0's exit-register read fails with transient errno
5 (EIO), iteration 1's fails with ESRCH. -/
def oTrans : Nat → IterInput := fun n =>
  if n = 0 then ⟨Except.ok ⟨42, 0⟩, Except.error (some 5)⟩
  else ⟨Except.ok ⟨7, 0⟩, Except.error (some ESRCH)⟩

/-- Oracle: the exit register snapshot reports syscall id 99 while the
entry snapshot reported 10. -/
def oMismatch : Nat → IterInput := fun _ =>
  ⟨Except.ok ⟨10, 0⟩, Except.ok ⟨99, 1⟩⟩

/-- Oracle: the exit-register read of every iteration fails with ESRCH. -/
def oEsrch : Nat → IterInput := fun _ =>
  ⟨Except.ok ⟨5, 0⟩, Except.error (some ESRCH)⟩

/-! ### Helper lemmas about the memory reader primitives -/

theorem readRange_length (mem : Mem) :
    ∀ (n base : Nat) (bs : List Nat), readRange mem base n = some bs → bs.length = n := by
  intro n
  induction n with
  | zero =>
    intro base bs h
    simp [readRange] at h
    simp [← h]
  | succ m ih =>
    intro base bs h
    simp only [readRange, Option.bind_eq_some, Option.map_eq_some'] at h
    obtain ⟨b, _, rest, hrest, hbs⟩ := h
    subst hbs
    simp [ih (base + 1) rest hrest]

theorem readRange_get (mem : Mem) :
    ∀ (n base : Nat) (bs : List Nat), readRange mem base n = some bs →
      ∀ i, i < n → bs.get? i = mem (base + i) := by
  intro n
  induction n with
  | zero => intro base bs _ i hi; omega
  | succ m ih =>
    intro base bs h i hi
    simp only [readRange, Option.bind_eq_some, Option.map_eq_some'] at h
    obtain ⟨b, hb, rest, hrest, hbs⟩ := h
    subst hbs
    cases i with
    | zero => simpa using hb.symm
    | succ j =>
      have hj : j < m := by omega
      have := ih (base + 1) rest hrest j hj
      have harith : base + 1 + j = base + (j + 1) := by omega
      rw [harith] at this
      simpa using this

theorem readRange_total (mem : Mem) :
    ∀ (n base : Nat), (∀ i, i < n → (mem (base + i)).isSome = true) →
      ∃ bs, readRange mem base n = some bs := by
  intro n
  induction n with
  | zero => intro base _; exact ⟨[], rfl⟩
  | succ m ih =>
    intro base hmap
    have h0 : (mem base).isSome = true := by simpa using hmap 0 (by omega)
    obtain ⟨b, hb⟩ := Option.isSome_iff_exists.mp h0
    have hshift : ∀ i, i < m → (mem (base + 1 + i)).isSome = true := by
      intro i hi
      have harith : base + 1 + i = base + (i + 1) := by omega
      rw [harith]
      exact hmap (i + 1) (by omega)
    obtain ⟨rest, hrest⟩ := ih (base + 1) hshift
    exact ⟨b :: rest, by simp [readRange, hb, hrest]⟩

theorem readRange_add (mem : Mem) :
    ∀ (m n base : Nat), readRange mem base (m + n) =
      (readRange mem base m).bind
        (fun b1 => (readRange mem (base + m) n).map (fun b2 => b1 ++ b2)) := by
  intro m
  induction m with
  | zero =>
    intro n base
    simp only [Nat.zero_add, Nat.add_zero]
    cases h : readRange mem base n <;> simp [readRange, h]
  | succ k ih =>
    intro n base
    have harith : k + 1 + n = (k + n) + 1 := by omega
    rw [harith]
    simp only [readRange]
    cases hb : mem base with
    | none => simp
    | some b =>
      simp only [Option.some_bind, ih n (base + 1)]
      cases h1 : readRange mem (base + 1) k with
      | none => simp
      | some l1 =>
        have harith2 : base + 1 + k = base + (k + 1) := by omega
        rw [harith2]
        cases h2 : readRange mem (base + (k + 1)) n <;> simp

theorem vecContains_append (l1 l2 : List Nat) (x : Nat) :
    vecContains (l1 ++ l2) x = (vecContains l1 x || vecContains l2 x) := by
  induction l1 with
  | nil => simp [vecContains]
  | cons b rest ih => simp [vecContains, ih, Bool.or_assoc]

theorem vecContains_iff_get (l : List Nat) (x : Nat) :
    vecContains l x = true ↔ ∃ i, l.get? i = some x := by
  induction l with
  | nil => simp [vecContains]
  | cons b rest ih =>
    simp only [vecContains, Bool.or_eq_true, beq_iff_eq, ih]
    constructor
    · rintro (rfl | ⟨i, hi⟩)
      · exact ⟨0, rfl⟩
      · exact ⟨i + 1, by simpa using hi⟩
    · rintro ⟨i, hi⟩
      cases i with
      | zero => left; simpa using hi
      | succ j => right; exact ⟨j, by simpa using hi⟩

theorem position_first_zero :
    ∀ (l : List Nat) (L : Nat), l.get? L = some 0 →
      (∀ j, j < L → l.get? j ≠ some 0) →
      position (fun x => x == 0) l = some L := by
  intro l
  induction l with
  | nil => intro L h _; simp at h
  | cons b rest ih =>
    intro L h hfirst
    cases L with
    | zero =>
      simp only [List.get?] at h
      simp [position, Option.some_inj.mp h]
    | succ K =>
      have hb : b ≠ 0 := by
        intro hb0
        exact hfirst 0 (by omega) (by simp [hb0])
      have hr : rest.get? K = some 0 := by simpa using h
      have hrf : ∀ j, j < K → rest.get? j ≠ some 0 := by
        intro j hj hcontra
        exact hfirst (j + 1) (by omega) (by simpa using hcontra)
      simp [position, hb, ih K hr hrf]

theorem position_zero_of_contains (l : List Nat) (h : vecContains l 0 = true) :
    ∃ i, position (fun x => x == 0) l = some i ∧ l.get? i = some 0 ∧
      ∀ j, j < i → l.get? j ≠ some 0 := by
  induction l with
  | nil => simp [vecContains] at h
  | cons b rest ih =>
    by_cases hb : b = 0
    · refine ⟨0, by simp [position, hb], by simp [hb], by omega⟩
    · have hr : vecContains rest 0 = true := by
        simpa [vecContains, hb] using h
      obtain ⟨i, hpos, hget, hfirst⟩ := ih hr
      refine ⟨i + 1, by simp [position, hb, hpos], by simpa using hget, ?_⟩
      intro j hj
      cases j with
      | zero => simpa using hb
      | succ k => simpa using hfirst k (by omega)

theorem position_some_get :
    ∀ (l : List Nat) (p : Nat → Bool) (i : Nat), position p l = some i →
      ∃ v, l.get? i = some v ∧ p v = true := by
  intro l
  induction l with
  | nil => intro p i h; simp [position] at h
  | cons b rest ih =>
    intro p i h
    by_cases hb : p b
    · simp [position, hb] at h
      subst h
      exact ⟨b, rfl, hb⟩
    · simp [position, hb, Option.map_eq_some'] at h
      obtain ⟨j, hj, rfl⟩ := h
      obtain ⟨v, hv, hpv⟩ := ih p j hj
      exact ⟨v, by simpa using hv, hpv⟩

/-- Main characterization of the chunk loop on a successful scan: if the
whole region of `c + 1` chunks is readable, the first `c` chunks (plus
whatever was already accumulated) contain no zero byte, and the full
accumulated buffer has its first zero at index `idx`, then the loop
performs exactly `c + 1` reads and breaks with the accumulated buffer
and `nul_idx = idx`. -/
theorem cstrLoop_done (mem : Mem) :
    ∀ (c f base : Nat) (acc : List Nat) (ni : Int) (r : Nat) (bs : List Nat) (idx : Nat),
      c + 1 ≤ f →
      readRange mem base (chunkSize * (c + 1)) = some bs →
      vecContains (acc ++ bs.take (chunkSize * c)) 0 = false →
      position (fun x => x == 0) (acc ++ bs) = some idx →
      cstrLoop mem f base acc ni r = LoopRes.done (acc ++ bs) (Int.ofNat idx) (r + (c + 1)) := by
  intro c
  induction c with
  | zero =>
    intro f base acc ni r bs idx hf hread _ hpos
    obtain ⟨f', rfl⟩ : ∃ f', f = f' + 1 := ⟨f - 1, by omega⟩
    have hread' : readRange mem base chunkSize = some bs := by
      simpa using hread
    have hcont : vecContains (acc ++ bs) 0 = true := by
      obtain ⟨v, hv, hpv⟩ := position_some_get (acc ++ bs) (fun x => x == 0) idx hpos
      have hv0 : v = 0 := by simpa using hpv
      exact (vecContains_iff_get (acc ++ bs) 0).mpr ⟨idx, hv0 ▸ hv⟩
    simp [cstrLoop, hread', hcont, hpos]
  | succ k ih =>
    intro f base acc ni r bs idx hf hread hnz hpos
    obtain ⟨f', rfl⟩ : ∃ f', f = f' + 1 := ⟨f - 1, by omega⟩
    have hsplit : chunkSize * (k + 1 + 1) = chunkSize + chunkSize * (k + 1) := by ring
    rw [hsplit, readRange_add] at hread
    rw [Option.bind_eq_some] at hread
    obtain ⟨b1, hb1, hmap⟩ := hread
    rw [Option.map_eq_some'] at hmap
    obtain ⟨b2, hb2, rfl⟩ := hmap
    have hlen1 : b1.length = chunkSize := readRange_length mem chunkSize base b1 hb1
    have hmul : chunkSize * (k + 1) = chunkSize * k + chunkSize := by ring
    have harg : chunkSize * (k + 1) - chunkSize = chunkSize * k := by omega
    have htake : (b1 ++ b2).take (chunkSize * (k + 1)) = b1 ++ b2.take (chunkSize * k) := by
      rw [List.take_append_eq_append_take, hlen1,
        List.take_of_length_le (le_of_eq_of_le hlen1 (by omega)), harg]
    have hnz2 : vecContains ((acc ++ b1) ++ b2.take (chunkSize * k)) 0 = false := by
      rw [List.append_assoc, ← htake]
      exact hnz
    have hnzacc : vecContains (acc ++ b1) 0 = false := by
      rw [vecContains_append] at hnz2
      by_contra hcon
      rw [Bool.not_eq_false] at hcon
      rw [hcon] at hnz2
      simp at hnz2
    have hstep : cstrLoop mem (f' + 1) base acc ni r =
        cstrLoop mem f' (base + chunkSize) (acc ++ b1) ni (r + 1) := by
      simp [cstrLoop, hb1, hnzacc]
    rw [hstep]
    have hres := ih f' (base + chunkSize) (acc ++ b1) ni (r + 1) b2 idx (by omega) hb2 hnz2
      (by rw [List.append_assoc]; exact hpos)
    rw [List.append_assoc] at hres
    have harith : r + 1 + (k + 1) = r + (k + 1 + 1) := by omega
    rw [harith] at hres
    exact hres

/-- On a memory whose first zero byte (from `base`) sits at offset `L`,
with the needed `L / chunkSize + 1` chunks all mapped and enough fuel,
the chunk loop started from an empty buffer reads exactly
`L / chunkSize + 1` chunks and breaks with `nul_idx = L`. -/
theorem cstrLoop_firstZero (mem : Mem) (base L fuel : Nat)
    (h0 : mem (base + L) = some 0)
    (h1 : ∀ j, j < L → mem (base + j) ≠ some 0)
    (h2 : ∀ i, i < chunkSize * (L / chunkSize + 1) → (mem (base + i)).isSome = true)
    (h3 : L / chunkSize + 1 ≤ fuel) :
    ∃ bs, readRange mem base (chunkSize * (L / chunkSize + 1)) = some bs ∧
      cstrLoop mem fuel base [] (-1) 0 = LoopRes.done bs (Int.ofNat L) (L / chunkSize + 1) ∧
      position (fun x => x == 0) bs = some L := by
  obtain ⟨bs, hbs⟩ := readRange_total mem (chunkSize * (L / chunkSize + 1)) base h2
  have hget := readRange_get mem (chunkSize * (L / chunkSize + 1)) base bs hbs
  have hdm := Nat.div_add_mod L chunkSize
  have hmod : L % chunkSize < chunkSize := Nat.mod_lt L (by norm_num [chunkSize])
  have hmul : chunkSize * (L / chunkSize + 1) = chunkSize * (L / chunkSize) + chunkSize := by
    ring
  have hlc : L < chunkSize * (L / chunkSize + 1) := by omega
  have hbsL : bs.get? L = some 0 := by rw [hget L hlc]; exact h0
  have hbefore : ∀ j, j < L → bs.get? j ≠ some 0 := by
    intro j hj
    rw [hget j (by omega)]
    exact h1 j hj
  have hpos : position (fun x => x == 0) bs = some L :=
    position_first_zero bs L hbsL hbefore
  have hnz : vecContains (([] : List Nat) ++ bs.take (chunkSize * (L / chunkSize))) 0 = false := by
    rw [List.nil_append]
    by_contra hcon
    rw [Bool.not_eq_false] at hcon
    obtain ⟨i, hi⟩ := (vecContains_iff_get _ 0).mp hcon
    obtain ⟨hlt, _⟩ := List.get?_eq_some.mp hi
    rw [List.length_take] at hlt
    have hilt : i < chunkSize * (L / chunkSize) := lt_of_lt_of_le hlt (min_le_left _ _)
    rw [List.get?_take hilt] at hi
    rw [hget i (by omega)] at hi
    exact h1 i (by omega) hi
  have hdone := cstrLoop_done mem (L / chunkSize) fuel base [] (-1) 0 bs L h3 hbs hnz
    (by rw [List.nil_append]; exact hpos)
  rw [List.nil_append] at hdone
  exact ⟨bs, hbs, by simpa using hdone, hpos⟩

theorem readRange_ones : ∀ (n base : Nat), readRange onesMem base n = some (List.replicate n 1) := by
  intro n
  induction n with
  | zero => intro base; rfl
  | succ m ih => intro base; simp [readRange, onesMem, ih, List.replicate_succ]

theorem vecContains_replicate_one : ∀ n, vecContains (List.replicate n 1) 0 = false := by
  intro n
  induction n with
  | zero => rfl
  | succ m ih => simpa [List.replicate_succ, vecContains] using ih

/-- On the all-ones memory (no zero byte anywhere) the chunk loop never
breaks: it exhausts any amount of fuel. -/
theorem cstrLoop_onesMem : ∀ (f base : Nat) (acc : List Nat) (ni : Int) (r : Nat),
    vecContains acc 0 = false → cstrLoop onesMem f base acc ni r = LoopRes.fuelOut := by
  intro f
  induction f with
  | zero => intro base acc ni r _; rfl
  | succ g ih =>
    intro base acc ni r hacc
    have hnz : vecContains (acc ++ List.replicate chunkSize 1) 0 = false := by
      rw [vecContains_append, hacc, vecContains_replicate_one]
      rfl
    have hstep : cstrLoop onesMem (g + 1) base acc ni r =
        cstrLoop onesMem g (base + chunkSize) (acc ++ List.replicate chunkSize 1) ni (r + 1) := by
      simp [cstrLoop, readRange_ones, hnz]
    rw [hstep]
    exact ih (base + chunkSize) _ ni (r + 1) hnz

/-- Whenever the chunk loop breaks normally, `nul_idx` was set to the
index of the first zero byte of the accumulated buffer (in particular it
is non-negative), regardless of the incoming `nul_idx`. -/
theorem cstrLoop_done_inv (mem : Mem) :
    ∀ (f base : Nat) (acc : List Nat) (ni : Int) (r : Nat)
      (buf : List Nat) (idx : Int) (rd : Nat),
      cstrLoop mem f base acc ni r = LoopRes.done buf idx rd →
      ∃ i, idx = Int.ofNat i ∧ position (fun x => x == 0) buf = some i := by
  intro f
  induction f with
  | zero =>
    intro base acc ni r buf idx rd h
    simp [cstrLoop] at h
  | succ g ih =>
    intro base acc ni r buf idx rd h
    simp only [cstrLoop] at h
    split at h
    · exact absurd h (by simp)
    · rename_i chunk hread
      split at h
      · rename_i hcont
        split at h
        · rename_i idx' hposx
          injection h with h1 h2 h3
          exact ⟨idx', h2.symm, by rw [← h1]; exact hposx⟩
        · rename_i hposx
          obtain ⟨i, hpos, _, _⟩ := position_zero_of_contains _ hcont
          rw [hposx] at hpos
          exact absurd hpos (by simp)
      · exact ih _ _ _ _ _ _ _ h

/-! ### Lemmas about the trace loop -/

theorem childLoop_iter_ge {H : Type} (preH : Nat → Regs → H) (o : Nat → IterInput) :
    ∀ (f n : Nat) (ev : Ev H), ev ∈ (childLoop preH o f n).1 → n ≤ evIter ev := by
  intro f
  induction f with
  | zero => intro n ev h; simp [childLoop] at h
  | succ g ih =>
    intro n ev h
    simp only [childLoop] at h
    split at h
    · simp at h
    · rename_i eregs hent
      split at h
      · rename_i xregs hexit
        rcases List.mem_cons.mp h with rfl | h'
        · simp [evIter]
        · rcases List.mem_cons.mp h' with rfl | h''
          · simp [evIter]
          · have := ih (n + 1) ev h''
            omega
      · rename_i e hexit
        split at h
        · rcases List.mem_cons.mp h with rfl | h'
          · simp [evIter]
          · simp at h'
        · rcases List.mem_cons.mp h with rfl | h'
          · simp [evIter]
          · rcases List.mem_cons.mp h' with rfl | h''
            · simp [evIter]
            · have := ih (n + 1) ev h''
              omega

/-- C1: in the trace loop, when the exit-register read fails with ESRCH
("process no longer exists") the loop emits no post-handler call for the
iteration and stops in the terminal `exited` state; on any other
exit-register read failure the error is logged, no post-handler runs for
the iteration, and the loop goes on to the next iteration. -/
theorem c1_exit_read_failure_handling {H : Type} (preH : Nat → Regs → H)
    (o : Nat → IterInput) (f n : Nat) (er : Regs) (e : Option Nat)
    (hent : (o n).entry = Except.ok er) (hex : (o n).exitR = Except.error e) :
    (e = some ESRCH →
      childLoop preH o (f + 1) n =
        ([Ev.pre n er.orig_rax (preH er.orig_rax er)], LoopExit.exited))
    ∧ (e ≠ some ESRCH →
      (childLoop preH o (f + 1) n).1 =
          Ev.pre n er.orig_rax (preH er.orig_rax er) :: Ev.logErr n e ::
            (childLoop preH o f (n + 1)).1
        ∧ (childLoop preH o (f + 1) n).2 = (childLoop preH o f (n + 1)).2
        ∧ ∀ (id' : Nat) (h' : H), Ev.post n id' h' ∉ (childLoop preH o (f + 1) n).1) := by
  constructor
  · intro hE
    subst hE
    simp [childLoop, hent, hex]
  · intro hNE
    have heq : (childLoop preH o (f + 1) n).1 =
        Ev.pre n er.orig_rax (preH er.orig_rax er) :: Ev.logErr n e ::
          (childLoop preH o f (n + 1)).1 := by
      simp [childLoop, hent, hex, hNE]
    refine ⟨heq, by simp [childLoop, hent, hex, hNE], ?_⟩
    intro id' h' hmem
    rw [heq] at hmem
    rcases List.mem_cons.mp hmem with hc | hmem'
    · exact absurd hc (by simp)
    · rcases List.mem_cons.mp hmem' with hc | hmem''
      · exact absurd hc (by simp)
      · have := childLoop_iter_ge preH o f (n + 1) _ hmem''
        simp [evIter] at this

/-- Witness for C1 at a concrete oracle whose first exit-register read
fails with ESRCH: the loop makes the single pre-handler call and exits. -/
theorem c1_witness :
    childLoop idPre oEsrch 4 0 = ([Ev.pre 0 5 5], LoopExit.exited) :=
  (c1_exit_read_failure_handling idPre oEsrch 3 0 (Regs.mk 5 0) (some 3) rfl rfl).1 rfl

/-- C6 (amended): every trace produced by the trace loop is well-paired:
each iteration makes exactly one pre-handler call, followed by at most
one post-handler call; a post-handler call, when it happens, immediately
follows its own iteration's pre-handler call with the same syscall id
and consumes exactly the handoff value that pre-handler produced, and
iterations never interleave. -/
theorem c6_trace_well_paired :
    ∀ (H : Type) (preH : Nat → Regs → H) (o : Nat → IterInput) (f n : Nat),
      Paired n (childLoop preH o f n).1 := by
  intro H preH o f
  induction f with
  | zero => intro n; exact Paired.nil n
  | succ g ih =>
    intro n
    show Paired n (childLoop preH o (g + 1) n).1
    simp only [childLoop]
    split
    · exact Paired.nil n
    · rename_i eregs hent
      split
      · rename_i xregs hexit
        exact Paired.full n eregs.orig_rax (preH eregs.orig_rax eregs) _ (ih (n + 1))
      · rename_i e hexit
        by_cases hE : e = some ESRCH
        · rw [if_pos hE]
          exact Paired.last n eregs.orig_rax (preH eregs.orig_rax eregs)
        · rw [if_neg hE]
          exact Paired.skip n eregs.orig_rax (preH eregs.orig_rax eregs) e _ (ih (n + 1))

/-- C6 counterexample: with an oracle whose iteration-0 exit-register
read fails with a transient (non-ESRCH) error, the pre-handler of
syscall instance 0 runs but no post-handler call for that instance ever
occurs, so it is not the case that exactly one post-handler call follows
every pre-handler call. -/
theorem c6_counterexample :
    Ev.pre 0 42 42 ∈ (childLoop idPre oTrans 5 0).1 ∧
      Ev.post 0 42 42 ∉ (childLoop idPre oTrans 5 0).1 := by
  decide


/-- C10: the syscall id and handoff value handed to any post-handler
call are exactly the entry-snapshot `orig_rax` of that iteration and the
value the matching pre-handler produced from the entry snapshot — the
exit register snapshot is never consulted for the id. -/
theorem c10_post_uses_entry_id :
    ∀ (H : Type) (preH : Nat → Regs → H) (o : Nat → IterInput) (f n m id : Nat)
      (h : H) (er : Regs),
      (o m).entry = Except.ok er →
      Ev.post m id h ∈ (childLoop preH o f n).1 →
      id = er.orig_rax ∧ h = preH er.orig_rax er ∧
        Ev.pre m id h ∈ (childLoop preH o f n).1 := by
  intro H preH o f
  induction f with
  | zero =>
    intro n m id h er _ hmem
    simp [childLoop] at hmem
  | succ g ih =>
    intro n m id h er hent hmem
    cases hent' : (o n).entry with
    | error err =>
      rw [show (childLoop preH o (g + 1) n).1 = [] from by simp [childLoop, hent']] at hmem
      simp at hmem
    | ok eregs =>
      cases hexit : (o n).exitR with
      | ok xregs =>
        have heq : (childLoop preH o (g + 1) n).1 =
            Ev.pre n eregs.orig_rax (preH eregs.orig_rax eregs) ::
              Ev.post n eregs.orig_rax (preH eregs.orig_rax eregs) ::
                (childLoop preH o g (n + 1)).1 := by
          simp [childLoop, hent', hexit]
        rw [heq] at hmem
        rw [heq]
        rcases List.mem_cons.mp hmem with hc | hmem'
        · exact absurd hc (by simp)
        · rcases List.mem_cons.mp hmem' with hc | hmem''
          · injection hc with e1 e2 e3
            subst e1
            subst e2
            subst e3
            have hereg : er = eregs := by
              rw [hent'] at hent
              injection hent with he
              exact he.symm
            subst hereg
            exact ⟨rfl, rfl, List.mem_cons_self _ _⟩
          · obtain ⟨hid, hh, hpre⟩ := ih (n + 1) m id h er hent hmem''
            exact ⟨hid, hh, List.mem_cons_of_mem _ (List.mem_cons_of_mem _ hpre)⟩
      | error e =>
        by_cases hE : e = some ESRCH
        · have heq : (childLoop preH o (g + 1) n).1 =
              [Ev.pre n eregs.orig_rax (preH eregs.orig_rax eregs)] := by
            simp [childLoop, hent', hexit, hE]
          rw [heq] at hmem
          simp at hmem
        · have heq : (childLoop preH o (g + 1) n).1 =
              Ev.pre n eregs.orig_rax (preH eregs.orig_rax eregs) ::
                Ev.logErr n e :: (childLoop preH o g (n + 1)).1 := by
            simp [childLoop, hent', hexit, hE]
          rw [heq] at hmem
          rw [heq]
          rcases List.mem_cons.mp hmem with hc | hmem'
          · exact absurd hc (by simp)
          · rcases List.mem_cons.mp hmem' with hc | hmem''
            · exact absurd hc (by simp)
            · obtain ⟨hid, hh, hpre⟩ := ih (n + 1) m id h er hent hmem''
              exact ⟨hid, hh, List.mem_cons_of_mem _ (List.mem_cons_of_mem _ hpre)⟩

/-- Witness for C10 at an oracle whose exit snapshot reports syscall id
99 while the entry snapshot reported 10: the post-handler still gets 10. -/
theorem c10_witness :
    (10 : Nat) = (Regs.mk 10 0).orig_rax ∧
      (10 : Nat) = idPre (Regs.mk 10 0).orig_rax (Regs.mk 10 0) ∧
      Ev.pre 0 10 10 ∈ (childLoop idPre oMismatch 1 0).1 :=
  c10_post_uses_entry_id Nat idPre oMismatch 1 0 0 10 10 (Regs.mk 10 0) rfl (by decide)

theorem ofNat_nonneg' (n : Nat) : (0 : Int) ≤ Int.ofNat n := Int.zero_le_ofNat n

theorem ofNat_gt_neg_one (n : Nat) : Int.ofNat n > -1 := by
  have h := ofNat_nonneg' n
  omega

/-! ### Claim theorems about the remote memory reader -/

/-- C2: for a memory whose first zero byte after `base` sits at offset
`L`, with the needed chunks mapped and enough fuel, `get_child_buffer_cstr`
returns exactly the lossily decoded bytes strictly before the first zero
byte, having read successive 255-byte chunks until the accumulated
buffer contains a zero byte. -/
theorem c2_cstr_decodes_before_first_zero
    (mem : Mem) (base L fuel : Nat)
    (h0 : mem (base + L) = some 0)
    (h1 : ∀ j, j < L → mem (base + j) ≠ some 0)
    (h2 : ∀ i, i < chunkSize * (L / chunkSize + 1) → (mem (base + i)).isSome = true)
    (h3 : L / chunkSize + 1 ≤ fuel)
    (bsL : List Nat) (hbsL : readRange mem base L = some bsL) :
    get_child_buffer_cstr fuel mem base = CstrRes.ok (utf8Lossy bsL) := by
  obtain ⟨bs, hbs, hloop, hpos⟩ := cstrLoop_firstZero mem base L fuel h0 h1 h2 h3
  have hlenL : bsL.length = L := readRange_length mem L base bsL hbsL
  have hdm := Nat.div_add_mod L chunkSize
  have hmod : L % chunkSize < chunkSize := Nat.mod_lt L (by norm_num [chunkSize])
  have hmul : chunkSize * (L / chunkSize + 1) = chunkSize * (L / chunkSize) + chunkSize := by
    ring
  have hsplit : chunkSize * (L / chunkSize + 1) =
      L + (chunkSize * (L / chunkSize + 1) - L) := by omega
  rw [hsplit, readRange_add, Option.bind_eq_some] at hbs
  obtain ⟨p1, hp1, hmap⟩ := hbs
  rw [Option.map_eq_some'] at hmap
  obtain ⟨p2, hp2, rfl⟩ := hmap
  have hp1L : p1 = bsL := by
    rw [hbsL] at hp1
    exact (Option.some_inj.mp hp1).symm
  subst hp1L
  simp only [get_child_buffer_cstr, hloop]
  rw [if_pos (ofNat_gt_neg_one L)]
  have htn : (Int.ofNat L).toNat = L := rfl
  have htl : (p1 ++ p2).take ((Int.ofNat L).toNat) = p1 := by
    rw [htn]
    exact List.take_left' hlenL
  rw [htl]

/-- Witness for C2: reading the C string "AAA" (terminator at offset 3)
yields exactly "AAA". -/
theorem c2_witness : get_child_buffer_cstr 1 aaaMem 0 = CstrRes.ok "AAA" := by
  have h := c2_cstr_decodes_before_first_zero aaaMem 0 3 1 (by decide) (by decide)
    (by decide) (by decide) [65, 65, 65] (by decide)
  have e : utf8Lossy [65, 65, 65] = "AAA" := by decide
  rw [e] at h
  exact h

/-- C3 (against the claim): on a region with no zero byte anywhere the
chunk-reading scan of `get_child_buffer_cstr` never returns, for every
amount of fuel — the source omits the bound the specification requires,
so there is no explicit failure, only an endless scan. -/
theorem c3_unbounded_scan_never_returns :
    ∀ (fuel base : Nat), get_child_buffer_cstr fuel onesMem base = CstrRes.fuelOut := by
  intro fuel base
  simp only [get_child_buffer_cstr, cstrLoop_onesMem fuel base [] (-1) 0 rfl]

/-- C4 (against the claim): a failed remote read does not propagate an
error to the requesting handler — both readers panic, aborting the whole
tracer process (the source's `.expect`). -/
theorem c4_remote_read_failure_panics :
    get_child_buffer noMem 0 1 = ReadRes.panicked ∧
      get_child_buffer_cstr 1 noMem 0 = CstrRes.panicked := by
  decide

/-- C5: when the whole `len`-byte range is mapped, `get_child_buffer`
reads and decodes exactly those `len` bytes; on the concrete unmapped
range, instead of returning a read failure it panics. -/
theorem c5_read_fixed_exact_or_panic :
    (∀ (mem : Mem) (base len : Nat) (bs : List Nat),
       readRange mem base len = some bs →
       get_child_buffer mem base len = ReadRes.ok (utf8Lossy bs) ∧ bs.length = len)
    ∧ get_child_buffer noMem 0 4 = ReadRes.panicked := by
  constructor
  · intro mem base len bs h
    exact ⟨by simp [get_child_buffer, h], readRange_length mem len base bs h⟩
  · decide

/-- Witness for C5 on a concrete fully mapped 2-byte range. -/
theorem c5_witness :
    get_child_buffer aaaMem 0 2 = ReadRes.ok (utf8Lossy [65, 65]) ∧
      ([65, 65] : List Nat).length = 2 :=
  c5_read_fixed_exact_or_panic.1 aaaMem 0 2 [65, 65] (by decide)

/-- C7: decoding is lossy and total — whenever the raw bytes are
obtained, both readers return a decoded string (invalid sequences
becoming U+FFFD), and the decoding step never turns a successful read
into a failure. -/
theorem c7_lossy_decode_never_fails :
    (∀ (mem : Mem) (base len : Nat) (bs : List Nat),
       readRange mem base len = some bs →
       get_child_buffer mem base len = ReadRes.ok (utf8Lossy bs))
    ∧ (∀ (mem : Mem) (f base : Nat) (buf : List Nat) (idx : Int) (rd : Nat),
       cstrLoop mem f base [] (-1) 0 = LoopRes.done buf idx rd →
       get_child_buffer_cstr f mem base = CstrRes.ok (utf8Lossy (buf.take idx.toNat)) ∨
         get_child_buffer_cstr f mem base = CstrRes.ok "")
    ∧ utf8Lossy [0xFF, 0x61] = String.mk [repl, 'a']
    ∧ get_child_buffer ffMem 0 2 = ReadRes.ok (String.mk [repl, repl]) := by
  refine ⟨?_, ?_, by decide, by decide⟩
  · intro mem base len bs h
    simp [get_child_buffer, h]
  · intro mem f base buf idx rd h
    simp only [get_child_buffer_cstr, h]
    by_cases hidx : idx > -1
    · left
      rw [if_pos hidx]
    · right
      rw [if_neg hidx]

/-- Witness for C7 on a read returning an invalid UTF-8 byte. -/
theorem c7_witness : get_child_buffer ffMem 0 1 = ReadRes.ok (utf8Lossy [255]) :=
  c7_lossy_decode_never_fails.1 ffMem 0 1 [255] (by decide)

/-- C8: whenever the chunk loop exits normally, `nul_idx` has been set
to the (non-negative) index of the first zero byte of the accumulated
buffer, so the `nul_idx == -1` fallback returning the empty string is
unreachable, and every normal return of `get_child_buffer_cstr` is the
decoded prefix strictly before the first zero byte. -/
theorem c8_normal_exit_excludes_fallback :
    (∀ (mem : Mem) (f base : Nat) (acc : List Nat) (ni : Int) (r : Nat)
       (buf : List Nat) (idx : Int) (rd : Nat),
       cstrLoop mem f base acc ni r = LoopRes.done buf idx rd →
       0 ≤ idx ∧ position (fun x => x == 0) buf = some idx.toNat)
    ∧ (∀ (mem : Mem) (f base : Nat) (s : String),
       get_child_buffer_cstr f mem base = CstrRes.ok s →
       ∃ buf idx rd, cstrLoop mem f base [] (-1) 0 = LoopRes.done buf (Int.ofNat idx) rd ∧
         position (fun x => x == 0) buf = some idx ∧ s = utf8Lossy (buf.take idx)) := by
  constructor
  · intro mem f base acc ni r buf idx rd h
    obtain ⟨i, rfl, hpos⟩ := cstrLoop_done_inv mem f base acc ni r buf _ rd h
    exact ⟨ofNat_nonneg' i, by simpa using hpos⟩
  · intro mem f base s hs
    cases hres : cstrLoop mem f base [] (-1) 0 with
    | done buf idx rd =>
      obtain ⟨i, rfl, hpos⟩ := cstrLoop_done_inv mem f base [] (-1) 0 buf _ rd hres
      refine ⟨buf, i, rd, rfl, hpos, ?_⟩
      simp only [get_child_buffer_cstr, hres] at hs
      rw [if_pos (ofNat_gt_neg_one i)] at hs
      injection hs with hs'
      rw [← hs']
      simp
    | panicked rd => simp [get_child_buffer_cstr, hres] at hs
    | fuelOut => simp [get_child_buffer_cstr, hres] at hs

/-- Witness for C8 on the all-zero memory: the loop breaks immediately
with `nul_idx = 0`. -/
theorem c8_witness :
    (0 : Int) ≤ Int.ofNat 0 ∧
      position (fun x => x == 0) (List.replicate 255 0) = some (Int.ofNat 0).toNat :=
  c8_normal_exit_excludes_fallback.1 zeroMem 1 0 [] (-1) 0 (List.replicate 255 0)
    (Int.ofNat 0) 1 (by decide)

/-- C9: the scan always reads whole 255-byte chunks — with the first
zero byte at offset `L` it performs exactly `L / 255 + 1` reads and the
accumulated buffer holds `255 * (L / 255 + 1)` bytes; each chunk read is
all-or-nothing over its 255 addresses, and on the concrete memory
mapped only up to its terminator at offset 3 the reader touches the
unmapped bytes past the terminator and panics. -/
theorem c9_whole_chunk_reads :
    (∀ (mem : Mem) (base L fuel : Nat) (buf : List Nat) (idx : Int) (rd : Nat),
       mem (base + L) = some 0 →
       (∀ j, j < L → mem (base + j) ≠ some 0) →
       (∀ i, i < chunkSize * (L / chunkSize + 1) → (mem (base + i)).isSome = true) →
       L / chunkSize + 1 ≤ fuel →
       cstrLoop mem fuel base [] (-1) 0 = LoopRes.done buf idx rd →
       rd = L / chunkSize + 1 ∧ buf.length = chunkSize * (L / chunkSize + 1))
    ∧ (∀ (mem : Mem) (f base : Nat) (acc : List Nat) (ni : Int) (r : Nat),
       readRange mem base chunkSize = none →
       cstrLoop mem (f + 1) base acc ni r = LoopRes.panicked r)
    ∧ get_child_buffer_cstr 1 shortMem 0 = CstrRes.panicked := by
  refine ⟨?_, ?_, by decide⟩
  · intro mem base L fuel buf idx rd h0 h1 h2 h3 hdone
    obtain ⟨bs, hbs, hloop, hpos⟩ := cstrLoop_firstZero mem base L fuel h0 h1 h2 h3
    rw [hloop] at hdone
    injection hdone with e1 e2 e3
    subst e1
    exact ⟨e3.symm, readRange_length mem _ base _ hbs⟩
  · intro mem f base acc ni r h
    simp [cstrLoop, h]

/-- Witness for C9: a terminator at offset 0 still costs one whole
255-byte chunk read. -/
theorem c9_witness :
    (1 : Nat) = 0 / chunkSize + 1 ∧
      (List.replicate 255 0).length = chunkSize * (0 / chunkSize + 1) :=
  c9_whole_chunk_reads.1 zeroMem 0 0 1 (List.replicate 255 0) (Int.ofNat 0) 1
    (by decide) (by decide) (by decide) (by decide) (by decide)
